import Mathlib

/-!
Verification of the grammar engine of the `speak` repository: the EBNF
expression data model, the grammar validator, the terminal extractor, the
EBNF-to-regex translation and the backtracking grammar interpreter.

Go strings are modelled as lists of runes (`List Char`); Go maps keyed by
strings are modelled as association lists with unique keys, looked up by
first match.  Go's in-place pointer mutation of a production's expression
is modelled by explicit state passing: `validate` returns both its result
and the grammar as observable after the call.
-/

set_option linter.unusedVariables false

/-- A Go string, viewed as its sequence of runes. -/
abbrev Str := List Char

/-- Go's `utf8.DecodeRuneInString` on an empty string yields `RuneError`
(U+FFFD); `headD` with that default mirrors taking the first rune. -/
def runeError : Char := Char.ofNat 0xFFFD

/-- From `isLexical` in the source: a production name is lexical iff its
first rune is not upper-case.  (`unicode.IsUpper` is modelled by
`Char.isUpper`; the grammars under study use ASCII names.) -/
def isLexical (name : Str) : Bool := !(name.headD runeError).isUpper

/-- The EBNF expression variant of `golang.org/x/exp/ebnf` as used by the
source: `empty` models the `nil` expression of an empty production body. -/
inductive Expr where
  | empty
  | alt (xs : List Expr)
  | seq (xs : List Expr)
  | name (s : Str)
  | tok (s : Str)
  | range (b e : Str)
  | group (body : Expr)
  | opt (body : Expr)
  | rep (body : Expr)

instance : Inhabited Expr := ⟨.empty⟩

/-- A production: a name together with its expression. -/
structure Production where
  name : Str
  expr : Expr

/-- A grammar: map from production name to production, modelled as an
association list with unique names, looked up by first match. -/
abbrev Grammar := List Production

/-- Map lookup `grammar[name]`. -/
def Grammar.find? (g : Grammar) (s : Str) : Option Production :=
  List.find? (fun p => p.name == s) g

/-- In-place update `prod.Expr = e` of the production named `s` (first
match), the functional rendering of the Go pointer mutation. -/
def Grammar.setExpr : Grammar → Str → Expr → Grammar
  | [], _, _ => []
  | p :: ps, s, e =>
    if p.name == s then { p with expr := e } :: ps else p :: Grammar.setExpr ps s e

mutual
/-- From `hasRange` in the source: the first range expression contained in
the given expression tree, if any (name references are not followed). -/
def hasRange : Expr → Option (Str × Str)
  | .empty => none
  | .alt xs => hasRangeList xs
  | .seq xs => hasRangeList xs
  | .name _ => none
  | .tok _ => none
  | .range b e => some (b, e)
  | .group body => hasRange body
  | .opt body => hasRange body
  | .rep body => hasRange body

def hasRangeList : List Expr → Option (Str × Str)
  | [] => none
  | x :: xs =>
    match hasRange x with
    | some r => some r
    | none => hasRangeList xs
end

mutual
/-- The production names referenced by an expression tree. -/
def exprNames : Expr → List Str
  | .empty => []
  | .alt xs => exprNamesList xs
  | .seq xs => exprNamesList xs
  | .name s => [s]
  | .tok _ => []
  | .range _ _ => []
  | .group body => exprNames body
  | .opt body => exprNames body
  | .rep body => exprNames body

def exprNamesList : List Expr → List Str
  | [] => []
  | x :: xs => exprNames x ++ exprNamesList xs
end

/-- Errors of the closure check (external `ebnf.Verify`). -/
inductive VerifyErr where
  | noProd (s : Str)
  | undefProd (s : Str)
  | unreachProd (s : Str)
  | badLex (s : Str)

/-- One step of the reachability closure: add every name referenced from an
already-reached, defined production. -/
def reachStep (g : Grammar) (seen : List Str) : List Str :=
  let referenced := ((seen.filterMap g.find?).map (fun p => exprNames p.expr)).flatten
  seen ++ (referenced.filter (fun s => !seen.contains s)).dedup

/-- Iteration bound large enough to reach the closure fixpoint. -/
def reachFuel (g : Grammar) : Nat :=
  (g.map (fun p => (exprNames p.expr).length)).sum + g.length + 1

def reachIter (g : Grammar) : Nat → List Str → List Str
  | 0, seen => seen
  | n + 1, seen => reachIter g n (reachStep g seen)

/-- Names reachable from `start` via name references. -/
def reachable (g : Grammar) (start : Str) : List Str :=
  reachIter g (reachFuel g) [start]

/-- Modelled from the spec: the closure check of the external
`golang.org/x/exp/ebnf` package's `Verify`, which is not part of this
repository's sources.  Per the spec and the source's doc comment it checks
that the start production exists, that all productions used are defined,
that all productions defined are reachable from `start`, and that lexical
productions refer only to lexical productions.  It never modifies the
grammar. -/
def verify (g : Grammar) (start : Str) : Except VerifyErr Unit :=
  if (g.find? start).isNone then .error (.noProd start)
  else
    let reach := reachable g start
    match (reach.filter (fun s => (g.find? s).isNone)).head? with
    | some s => .error (.undefProd s)
    | none =>
      match (g.filter (fun p => !reach.contains p.name)).head? with
      | some p => .error (.unreachProd p.name)
      | none =>
        match (g.filter (fun p =>
            isLexical p.name && !(exprNames p.expr).all isLexical)).head? with
        | some p => .error (.badLex p.name)
        | none => .ok ()

/-- Errors of `validate` from the source. -/
inductive ValidateErr where
  | noStart (s : Str)
  | invalidSkip (s : Str)
  | missingSkip (s : Str)
  | verifyFail (e : VerifyErr)
  | misplacedRange (n b e : Str)

/-- The skip-name loop of `validate`: each skip name must be lexical and
defined; the extra alternatives `&ebnf.Name{String: id}` are collected in
order. -/
def buildAlts (g : Grammar) : List Str → Except ValidateErr (List Expr)
  | [] => .ok []
  | id :: ids =>
    if !isLexical id then .error (.invalidSkip id)
    else if (g.find? id).isNone then .error (.missingSkip id)
    else
      match buildAlts g ids with
      | .error e => .error e
      | .ok rest => .ok (.name id :: rest)

/-- The final loop of `validate`: ranges may only occur inside lexical
productions.  (The Go `range` over the map visits productions in
unspecified order; the association list is visited front to back.) -/
def rangeCheck : Grammar → Except ValidateErr Unit
  | [] => .ok ()
  | p :: ps =>
    if isLexical p.name then rangeCheck ps
    else
      match hasRange p.expr with
      | some (b, e) => .error (.misplacedRange p.name b e)
      | none => rangeCheck ps

/-- From `validate` in the source: temporarily replaces the start
production's expression by the alternative list that unions in the skip
names, runs the closure check, restores the start expression, then checks
range containment.  The returned grammar is the grammar as observable by
the caller after `validate` returns. -/
def validate (g : Grammar) (start : Str) (skip : List Str) :
    Except ValidateErr Unit × Grammar :=
  match g.find? start with
  | none => (.error (.noStart start), g)
  | some startProd =>
    let startExpr := startProd.expr
    match buildAlts g skip with
    | .error e => (.error e, g)
    | .ok skipAlts =>
      let g1 := g.setExpr start (.alt (startExpr :: skipAlts))
      match verify g1 start with
      | .error e => (.error (.verifyFail e), g1)
      | .ok _ =>
        let g2 := g1.setExpr start startExpr
        (rangeCheck g2, g2)

-- ### Association-list and setExpr lemmas

theorem find?_name_eq {g : Grammar} {s : Str} {p : Production}
    (h : g.find? s = some p) : p.name = s ∧ p ∈ g := by
  unfold Grammar.find? at h
  have h1 := List.find?_some h
  have h2 := List.mem_of_find?_eq_some h
  exact ⟨by simpa using h1, h2⟩

theorem setExpr_setExpr : ∀ (g : Grammar) (s : Str) (a b : Expr),
    (g.setExpr s a).setExpr s b = g.setExpr s b
  | [], _, _, _ => rfl
  | p :: ps, s, a, b => by
    by_cases h : (p.name == s) = true
    · simp [Grammar.setExpr, h]
    · simp [Grammar.setExpr, h, setExpr_setExpr ps s a b]

theorem setExpr_find?_self : ∀ (g : Grammar) (s : Str) (p : Production),
    g.find? s = some p → g.setExpr s p.expr = g
  | [], _, _, h => by simp [Grammar.find?] at h
  | q :: ps, s, p, h => by
    by_cases hq : (q.name == s) = true
    · simp [Grammar.find?, List.find?, hq] at h
      subst h
      simp [Grammar.setExpr, hq]
    · simp [Grammar.find?, List.find?, hq] at h
      simp [Grammar.setExpr, hq]
      exact setExpr_find?_self ps s p h

theorem buildAlts_error_shape (g : Grammar) :
    ∀ (l : List Str) (e : ValidateErr), buildAlts g l = .error e →
      (∃ s, e = .invalidSkip s) ∨ (∃ s, e = .missingSkip s) := by
  intro l
  induction l with
  | nil => intro e h; exact absurd h (by simp [buildAlts])
  | cons id ids ih =>
    intro e h
    unfold buildAlts at h
    split at h
    · exact Or.inl ⟨id, by injection h with h'; exact h'.symm⟩
    · split at h
      · exact Or.inr ⟨id, by injection h with h'; exact h'.symm⟩
      · split at h
        · rename_i e' heq
          injection h with h'
          subst h'
          exact ih _ heq
        · exact absurd h (by simp)

theorem rangeCheck_error_sound : ∀ (g : Grammar) (n b ed : Str),
    rangeCheck g = .error (.misplacedRange n b ed) →
      ∃ p ∈ g, p.name = n ∧ isLexical p.name = false ∧ hasRange p.expr = some (b, ed) := by
  intro g
  induction g with
  | nil => intro n b ed h; exact absurd h (by simp [rangeCheck])
  | cons p ps ih =>
    intro n b ed h
    unfold rangeCheck at h
    split at h
    · obtain ⟨q, hq, hrest⟩ := ih n b ed h
      exact ⟨q, List.mem_cons_of_mem _ hq, hrest⟩
    · split at h
      · rename_i b' ed' heq
        injection h with h'
        injection h' with h1 h2 h3
        subst h1; subst h2; subst h3
        exact ⟨p, List.mem_cons_self .., rfl, by simp_all, heq⟩
      · obtain ⟨q, hq, hrest⟩ := ih n b ed h
        exact ⟨q, List.mem_cons_of_mem _ hq, hrest⟩

-- ### C1: splice-and-restore behaviour of validate

/-- C1 (amended): whenever `validate` does not return a closure-check
(`ebnf.Verify`) failure — i.e. on success, on the two early skip errors, on
a missing start production and on a misplaced-range error — the grammar
observed by the caller afterwards equals the original grammar: the start
production's expression has been restored (or was never modified). -/
theorem validate_restores_unless_closure_fails (g : Grammar) (start : Str)
    (skip : List Str)
    (h : ∀ e, (validate g start skip).1 ≠ .error (.verifyFail e)) :
    (validate g start skip).2 = g := by
  unfold validate at h ⊢
  cases hf : g.find? start with
  | none => simp [hf]
  | some startProd =>
    simp only [hf] at h ⊢
    cases hb : buildAlts g skip with
    | error e => simp [hb]
    | ok skipAlts =>
      simp only [hb] at h ⊢
      cases hv : verify (g.setExpr start (.alt (startProd.expr :: skipAlts))) start with
      | error e =>
        simp only [hv] at h
        exact absurd rfl (h e)
      | ok u =>
        simp only [hv]
        exact (setExpr_setExpr g start _ _).trans (setExpr_find?_self g start startProd hf)

/-- C1 (counterexample): on a closure-check failure the start expression is
NOT restored.  For the grammar `Program = Foo .` with undefined `Foo`,
`validate` returns the verification error, yet the caller observes
`Program`'s expression as the spliced one-element alternative list instead
of the original expression. -/
theorem validate_counterexample_no_restore :
    (validate [⟨"Program".toList, .name "Foo".toList⟩] "Program".toList []).1
        = .error (.verifyFail (.undefProd "Foo".toList))
    ∧ ((validate [⟨"Program".toList, .name "Foo".toList⟩] "Program".toList []).2.find?
        "Program".toList).map Production.expr = some (.alt [.name "Foo".toList])
    ∧ Expr.alt [.name "Foo".toList] ≠ .name "Foo".toList :=
  ⟨rfl, rfl, fun h => nomatch h⟩

/-- C1 (witness): a concrete run of the amended theorem on the valid
grammar `Program = "a" .`: no closure failure occurs and the returned
grammar is the original one. -/
theorem validate_restores_witness :
    (∀ e, (validate [⟨"Program".toList, .tok "a".toList⟩] "Program".toList []).1
        ≠ .error (.verifyFail e))
    ∧ (validate [⟨"Program".toList, .tok "a".toList⟩] "Program".toList []).2
        = [⟨"Program".toList, .tok "a".toList⟩] :=
  ⟨(fun e h => nomatch h),
   validate_restores_unless_closure_fails _ _ _ (fun e h => nomatch h)⟩

-- ### C6: misplaced-range reporting of validate

theorem rangeCheck_not_ok (g : Grammar)
    (h : ∃ p ∈ g, isLexical p.name = false ∧ (hasRange p.expr).isSome) :
    ∃ n b ed, rangeCheck g = .error (.misplacedRange n b ed) := by
  induction g with
  | nil => simp at h
  | cons p ps ih =>
    obtain ⟨q, hq, hlex, hr⟩ := h
    rcases List.mem_cons.mp hq with rfl | hq'
    · unfold rangeCheck
      rw [hlex]
      simp only [Bool.false_eq_true, if_false]
      cases hx : hasRange q.expr with
      | none => rw [hx] at hr; simp at hr
      | some r => exact ⟨q.name, r.1, r.2, rfl⟩
    · unfold rangeCheck
      by_cases hl : isLexical p.name = true
      · simp only [hl, if_true]
        exact ih ⟨q, hq', hlex, hr⟩
      · simp only [Bool.not_eq_true] at hl
        rw [hl]
        simp only [Bool.false_eq_true, if_false]
        cases hx : hasRange p.expr with
        | none => exact ih ⟨q, hq', hlex, hr⟩
        | some r => exact ⟨p.name, r.1, r.2, rfl⟩

theorem validate_final_of_shape (g : Grammar) (start : Str) (skip : List Str)
    (h : ∀ e, (validate g start skip).1 = .error e →
      ∃ n b ed, e = .misplacedRange n b ed) :
    (validate g start skip).1 = rangeCheck g ∧ (validate g start skip).2 = g := by
  unfold validate at h ⊢
  cases hf : g.find? start with
  | none =>
    simp only [hf] at h
    obtain ⟨n, b, ed, hx⟩ := h _ rfl
    exact nomatch hx
  | some startProd =>
    simp only [hf] at h ⊢
    cases hb : buildAlts g skip with
    | error e =>
      simp only [hb] at h
      obtain ⟨n, b, ed, hx⟩ := h _ rfl
      rcases buildAlts_error_shape g skip e hb with ⟨s, rfl⟩ | ⟨s, rfl⟩ <;> exact nomatch hx
    | ok skipAlts =>
      simp only [hb] at h ⊢
      cases hv : verify (g.setExpr start (.alt (startProd.expr :: skipAlts))) start with
      | error e =>
        simp only [hv] at h
        obtain ⟨n, b, ed, hx⟩ := h _ rfl
        exact nomatch hx
      | ok u =>
        simp only [hv]
        have hg : (g.setExpr start (.alt (startProd.expr :: skipAlts))).setExpr start
            startProd.expr = g :=
          (setExpr_setExpr g start _ _).trans (setExpr_find?_self g start startProd hf)
        rw [hg]
        exact ⟨rfl, rfl⟩

/-- C6 (amended): any *MisplacedRange* error returned by `validate` names a
non-lexical production of the grammar whose tree contains the named range;
and provided the earlier checks pass (every error return is a
misplaced-range error), `validate` returns a *MisplacedRange* error if and
only if some non-lexical production's expression tree contains a range —
so ranges occurring only inside lexical productions never fail
validation. -/
theorem validate_misplacedRange_spec (g : Grammar) (start : Str) (skip : List Str) :
    (∀ n b ed, (validate g start skip).1 = .error (.misplacedRange n b ed) →
        ∃ p ∈ g, p.name = n ∧ isLexical p.name = false ∧ hasRange p.expr = some (b, ed))
    ∧ ((∀ e, (validate g start skip).1 = .error e →
          ∃ n b ed, e = .misplacedRange n b ed) →
        ((∃ n b ed, (validate g start skip).1 = .error (.misplacedRange n b ed)) ↔
          ∃ p ∈ g, isLexical p.name = false ∧ (hasRange p.expr).isSome)) := by
  constructor
  · intro n b ed hmis
    have hshape : ∀ e, (validate g start skip).1 = .error e →
        ∃ n' b' ed', e = .misplacedRange n' b' ed' := by
      intro e he
      rw [hmis] at he
      injection he with he'
      exact ⟨n, b, ed, he'.symm⟩
    obtain ⟨h1, h2⟩ := validate_final_of_shape g start skip hshape
    rw [h1] at hmis
    exact rangeCheck_error_sound g n b ed hmis
  · intro hshape
    obtain ⟨h1, h2⟩ := validate_final_of_shape g start skip hshape
    rw [h1]
    constructor
    · rintro ⟨n, b, ed, hmis⟩
      obtain ⟨p, hp, hname, hlex, hr⟩ := rangeCheck_error_sound g n b ed hmis
      exact ⟨p, hp, hlex, by simp [hr]⟩
    · intro hex
      exact rangeCheck_not_ok g hex

/-- C6 (counterexample): the "if" direction of the claim fails when an
earlier check fires first.  The grammar `Expr = "x" … "z" .` validated
with undefined start `Program` has a range inside a non-lexical
production, yet `validate` returns the missing-start error, not
*MisplacedRange*. -/
theorem validate_misplacedRange_counterexample :
    (∃ p ∈ ([⟨"Expr".toList, .range "x".toList "z".toList⟩] : Grammar),
        isLexical p.name = false ∧ (hasRange p.expr).isSome)
    ∧ (validate [⟨"Expr".toList, .range "x".toList "z".toList⟩] "Program".toList []).1
        = .error (.noStart "Program".toList)
    ∧ ∀ n b ed,
        (validate [⟨"Expr".toList, .range "x".toList "z".toList⟩] "Program".toList []).1
          ≠ .error (.misplacedRange n b ed) :=
  ⟨⟨⟨"Expr".toList, .range "x".toList "z".toList⟩, by simp, rfl, rfl⟩, rfl,
   (fun n b ed h => nomatch h)⟩

/-- C6 (witness): the amended theorem applied to the grammar
`Expr = "x" … "z" .` with start `Expr`, where validation does reach the
range check and reports *MisplacedRange*. -/
theorem validate_misplacedRange_witness :
    ∃ p ∈ ([⟨"Expr".toList, .range "x".toList "z".toList⟩] : Grammar),
      isLexical p.name = false ∧ (hasRange p.expr).isSome := by
  have h := (validate_misplacedRange_spec [⟨"Expr".toList, .range "x".toList "z".toList⟩]
      "Expr".toList []).2
  refine (h ?_).mp ?_
  · intro e he
    have h0 : (validate [⟨"Expr".toList, .range "x".toList "z".toList⟩] "Expr".toList []).1
        = .error (.misplacedRange "Expr".toList "x".toList "z".toList) := rfl
    rw [h0] at he
    injection he with he'
    exact ⟨_, _, _, he'.symm⟩
  · exact ⟨_, _, _, rfl⟩

-- ### The grammar interpreter

/-- The mutable state of the Go `parser` struct: current position in the
input, end-of-input flag, and the skip-reentrancy flag.  The immutable
`grammar` and `input` fields live in `Ctx`. -/
structure PState where
  pos : Nat
  eof : Bool
  skipping : Bool

/-- The immutable part of the Go `parser` struct. -/
structure Ctx where
  grammar : Grammar
  input : Str

/-- From `nextRune` in the source: return the rune at the current position
and advance, or set the `eof` flag and return the `eof` sentinel (modelled
as `none`) when the position is at or past the end of the input. -/
def nextRune (c : Ctx) (s : PState) : Option Char × PState :=
  match c.input[s.pos]? with
  | none => (none, { s with eof := true })
  | some r => (some r, { s with pos := s.pos + 1 })

/-- From `evalToken` in the source: consume exactly the token's rune
sequence; fail on the `eof` sentinel or on the first mismatching rune,
without rolling back what was already consumed. -/
def evalToken (c : Ctx) : Str → PState → Bool × PState
  | [], s => (true, s)
  | q :: qs, s =>
    match nextRune c s with
    | (none, s2) => (false, s2)
    | (some r, s2) => if r = q then evalToken c qs s2 else (false, s2)

/-- From `evalRange` in the source: consume one rune and test it against
the inclusive interval given by the first runes of the two endpoint
tokens. -/
def evalRange (c : Ctx) (b e : Str) (s : PState) : Bool × PState :=
  let lo := b.headD runeError
  let hi := e.headD runeError
  match nextRune c s with
  | (none, s2) => (false, s2)
  | (some r, s2) => (decide (lo ≤ r ∧ r ≤ hi), s2)

mutual
/-- From `evalExpr` in the source: run `skip`, then dispatch on the
expression form.  The `Name` case inlines `evalName` and `evalProd`
(lookup of an undefined production dereferences `nil` in Go, modelled as
`none`); the `Group` case inlines `evalGroup`; the `nil` expression and
the fuel running out are also modelled as `none`.  Fuel decreases on every
nested evaluation step, so a result `some r` means the Go code returns
`r`. -/
def evalExpr : Nat → Ctx → Expr → PState → Option (Bool × PState)
  | 0, _, _, _ => none
  | n + 1, c, x, s =>
    match skip n c s with
    | none => none
    | some s1 =>
      match x with
      | .empty => none
      | .alt xs => evalAlt n c xs s1
      | .seq xs => evalSeq n c xs s1
      | .name nm =>
        match c.grammar.find? nm with
        | none => none
        | some prod => evalExpr n c prod.expr s1
      | .tok t => some (evalToken c t s1)
      | .range b e => some (evalRange c b e s1)
      | .group body => evalExpr n c body s1
      | .opt body => evalOpt n c body s1
      | .rep body => evalRep n c body s1

/-- From `parser.skip` in the source: return immediately when the
reentrancy guard `skipping` is set; otherwise set the guard, loop the
`skip` production while it matches (resetting the position after the final
failed attempt), and clear the guard. -/
def skip (n : Nat) (c : Ctx) (s : PState) : Option PState :=
  if s.skipping then some s
  else
    let s1 : PState := { s with skipping := true }
    match c.grammar.find? "skip".toList with
    | none => some { s1 with skipping := false }
    | some prod =>
      match n with
      | 0 => none
      | m + 1 =>
        match skipLoop m c prod.expr s1 with
        | none => none
        | some s2 => some { s2 with skipping := false }

/-- The `for` loop inside `parser.skip`: record the position, evaluate the
skip body, repeat while it matches, and reset the position after the
failed attempt. -/
def skipLoop : Nat → Ctx → Expr → PState → Option PState
  | 0, _, _, _ => none
  | n + 1, c, e, s =>
    match evalExpr n c e s with
    | none => none
    | some (true, s2) => skipLoop n c e s2
    | some (false, s2) => some { s2 with pos := s.pos }

/-- From `evalAlt` in the source: try the alternatives left to right
against the position saved before each attempt; accept the first match;
reset the position after each failed attempt; fail after the last. -/
def evalAlt : Nat → Ctx → List Expr → PState → Option (Bool × PState)
  | _, _, [], s => some (false, s)
  | 0, _, _ :: _, _ => none
  | n + 1, c, e :: es, s =>
    match evalExpr n c e s with
    | none => none
    | some (true, s2) => some (true, s2)
    | some (false, s2) => evalAlt n c es { s2 with pos := s.pos }

/-- From `evalSeq` in the source: evaluate the children in order; the
first failing child fails the sequence immediately and the position is
left where that child left it. -/
def evalSeq : Nat → Ctx → List Expr → PState → Option (Bool × PState)
  | _, _, [], s => some (true, s)
  | 0, _, _ :: _, _ => none
  | n + 1, c, e :: es, s =>
    match evalExpr n c e s with
    | none => none
    | some (false, s2) => some (false, s2)
    | some (true, s2) => evalSeq n c es s2

/-- From `evalOpt` in the source: when `eof` is not set, attempt the body
once and reset the position if it fails; always report success. -/
def evalOpt (n : Nat) (c : Ctx) (body : Expr) (s : PState) : Option (Bool × PState) :=
  if !s.eof then
    match n with
    | 0 => none
    | m + 1 =>
      match evalExpr m c body s with
      | none => none
      | some (true, s2) => some (true, s2)
      | some (false, s2) => some (true, { s2 with pos := s.pos })
  else some (true, s)

/-- From `evalRep` in the source: while `eof` is not set, attempt the body
from the saved position; stop and reset the position on the first failed
attempt; always report success. -/
def evalRep (n : Nat) (c : Ctx) (body : Expr) (s : PState) : Option (Bool × PState) :=
  if s.eof then some (true, s)
  else
    match n with
    | 0 => none
    | m + 1 =>
      match evalExpr m c body s with
      | none => none
      | some (true, s2) => evalRep m c body s2
      | some (false, s2) => some (true, { s2 with pos := s.pos })
end

/-- From `speak` in the source: evaluate the start production from the
initial state, then run a final `skip`.  A missing start production
dereferences `nil` in Go, modelled as `none`. -/
def speak (n : Nat) (g : Grammar) (input : Str) (start : Str) :
    Option (Bool × PState) :=
  let c : Ctx := ⟨g, input⟩
  match g.find? start with
  | none => none
  | some prod =>
    match evalExpr n c prod.expr ⟨0, false, false⟩ with
    | none => none
    | some (ret, s1) =>
      match skip n c s1 with
      | none => none
      | some s2 => some (ret, s2)

/-- Sanity check, scenario 1 of the spec: `Program = "a" { "a" } .`
against `"aaa"` matches with all three runes consumed. -/
theorem speak_scenario_one :
    speak 20 [⟨"Program".toList, .seq [.tok "a".toList, .rep (.tok "a".toList)]⟩]
      "aaa".toList "Program".toList
      = some (true, ⟨3, true, false⟩) := by rfl

-- ### Unfolding equations for the fuel-successor cases

theorem evalOpt_succ_eq (m : Nat) (c : Ctx) (body : Expr) (s : PState) :
    evalOpt (m + 1) c body s =
      if !s.eof then
        match evalExpr m c body s with
        | none => none
        | some (true, s2) => some (true, s2)
        | some (false, s2) => some (true, { s2 with pos := s.pos })
      else some (true, s) := rfl

theorem evalRep_succ_eq (m : Nat) (c : Ctx) (body : Expr) (s : PState) :
    evalRep (m + 1) c body s =
      if s.eof then some (true, s)
      else
        match evalExpr m c body s with
        | none => none
        | some (true, s2) => evalRep m c body s2
        | some (false, s2) => some (true, { s2 with pos := s.pos }) := by
  by_cases he : s.eof <;> simp [evalRep, he]

theorem skip_succ_eq (m : Nat) (c : Ctx) (s : PState) :
    skip (m + 1) c s =
      if s.skipping then some s
      else
        match c.grammar.find? "skip".toList with
        | none => some { s with skipping := false }
        | some prod =>
          match skipLoop m c prod.expr { s with skipping := true } with
          | none => none
          | some s2 => some { s2 with skipping := false } := rfl

-- ### C3: Option never fails and rolls back on body failure

/-- C3: whenever the evaluation of `Option(body)` returns a result, that
result reports success; and when the attempted body fails, the returned
cursor position equals the position at entry of the Option evaluation. -/
theorem evalOpt_spec (n : Nat) (c : Ctx) (body : Expr) (s : PState)
    (r : Bool × PState) (h : evalOpt n c body s = some r) :
    r.1 = true ∧ (∀ m s2, n = m + 1 →
      evalExpr m c body s = some (false, s2) → r.2.pos = s.pos) := by
  by_cases he : s.eof
  · cases n with
    | zero =>
      simp only [evalOpt, he, Bool.not_true, if_false] at h
      injection h with h'
      subst h'
      exact ⟨rfl, fun m s2 hm hf => rfl⟩
    | succ m =>
      rw [evalOpt_succ_eq] at h
      simp only [he, Bool.not_true, if_false] at h
      injection h with h'
      subst h'
      exact ⟨rfl, fun m s2 hm hf => rfl⟩
  · cases n with
    | zero => exact absurd h (by simp [evalOpt, eq_false_of_ne_true he])
    | succ m =>
      rw [evalOpt_succ_eq] at h
      simp only [eq_false_of_ne_true he, Bool.not_false, if_true] at h
      cases hb : evalExpr m c body s with
      | none => rw [hb] at h; exact absurd h (by simp)
      | some br =>
        rw [hb] at h
        obtain ⟨b, s2⟩ := br
        cases b with
        | true =>
          injection h with h'
          subst h'
          refine ⟨rfl, fun m' s2' hm hf => ?_⟩
          injection hm with hm'
          subst hm'
          rw [hb] at hf
          injection hf with hf'
          exact absurd (congrArg Prod.fst hf').symm (by simp)
        | false =>
          injection h with h'
          subst h'
          exact ⟨rfl, fun m' s2' hm hf => rfl⟩

/-- C3 (witness): `[ "b" ]` against input `"a"`: the body fails, the
option still succeeds and the cursor is back at entry position 0. -/
theorem evalOpt_spec_witness :
    ((true, (⟨0, false, false⟩ : PState)).1 = true)
    ∧ (∀ m s2, (5 : Nat) = m + 1 →
        evalExpr m ⟨[], "a".toList⟩ (.tok "b".toList) ⟨0, false, false⟩
          = some (false, s2) →
        (true, (⟨0, false, false⟩ : PState)).2.pos
          = (⟨0, false, false⟩ : PState).pos) :=
  evalOpt_spec 5 ⟨[], "a".toList⟩ (.tok "b".toList) ⟨0, false, false⟩
    (true, ⟨0, false, false⟩) rfl

-- ### C4: ordered choice with rollback between attempts

theorem evalAlt_fail_pos (c : Ctx) : ∀ (es : List Expr) (n : Nat) (s s2 : PState),
    evalAlt n c es s = some (false, s2) → s2.pos = s.pos := by
  intro es
  induction es with
  | nil =>
    intro n s s2 h
    cases n <;> · injection h with h'; injection h' with h1 h2; rw [← h2]
  | cons e es ih =>
    intro n s s2 h
    cases n with
    | zero => exact absurd h (by simp [evalAlt])
    | succ m =>
      unfold evalAlt at h
      cases hb : evalExpr m c e s with
      | none => rw [hb] at h; exact absurd h (by simp)
      | some br =>
        rw [hb] at h
        obtain ⟨b, s3⟩ := br
        cases b with
        | true =>
          injection h with h'
          exact absurd (congrArg Prod.fst h') (by simp)
        | false => exact ih m { s3 with pos := s.pos } s2 h

/-- C4: evaluating an Alternative tries its children left to right: a
successful first child yields success with that child's state, whatever
the remaining children are; a failed first child leads to the remaining
children evaluated from the entry position (the cursor is restored after
the failed attempt); and when the whole alternative fails, the final
cursor position equals the position at entry. -/
theorem evalAlt_spec (n : Nat) (c : Ctx) :
    (∀ es s s2, evalAlt n c es s = some (false, s2) → s2.pos = s.pos)
    ∧ (∀ e es s s2, evalExpr n c e s = some (true, s2) →
        evalAlt (n + 1) c (e :: es) s = some (true, s2))
    ∧ (∀ e es s s2, evalExpr n c e s = some (false, s2) →
        evalAlt (n + 1) c (e :: es) s = evalAlt n c es { s2 with pos := s.pos }) := by
  refine ⟨fun es s s2 h => evalAlt_fail_pos c es n s s2 h, ?_, ?_⟩
  · intro e es s s2 h
    simp only [evalAlt, h]
  · intro e es s s2 h
    simp only [evalAlt, h]

/-- C4 (witness): scenario 2 of the spec, `"a" | "b"` against `"b"`: the
first alternative fails, the cursor is rolled back, and the second
alternative matches; plus a failing run `"a" | "b"` against `"c"` whose
final position equals the entry position. -/
theorem evalAlt_spec_witness :
    evalAlt 10 ⟨[], "b".toList⟩ [.tok "a".toList, .tok "b".toList] ⟨0, false, false⟩
      = some (true, ⟨1, false, false⟩)
    ∧ (⟨0, false, false⟩ : PState).pos = (⟨0, false, false⟩ : PState).pos := by
  constructor
  · have h3 := (evalAlt_spec 9 ⟨[], "b".toList⟩).2.2 (.tok "a".toList) [.tok "b".toList]
        ⟨0, false, false⟩ ⟨1, false, false⟩ rfl
    have h2 := (evalAlt_spec 8 ⟨[], "b".toList⟩).2.1 (.tok "b".toList) []
        ⟨0, false, false⟩ ⟨1, false, false⟩ rfl
    rw [h3]
    exact h2
  · exact (evalAlt_spec 10 ⟨[], "c".toList⟩).1 [.tok "a".toList, .tok "b".toList]
      ⟨0, false, false⟩ ⟨0, false, false⟩ rfl

-- ### C5: sequences fail fast without rollback

/-- C5: if a prefix of a Sequence succeeds reaching state `s1` and the
next child fails there leaving state `s2`, the whole sequence fails with
exactly `s2` — the failing child's state is not rolled back — and the
result does not depend on the children after the failing one, which are
never evaluated. -/
theorem evalSeq_spec (c : Ctx) : ∀ (l1 : List Expr) (n m : Nat) (s s1 : PState)
    (e : Expr) (s2 : PState) (l2 : List Expr),
    evalSeq n c l1 s = some (true, s1) → n - l1.length = m + 1 →
    evalExpr m c e s1 = some (false, s2) →
    evalSeq n c (l1 ++ e :: l2) s = some (false, s2) := by
  intro l1
  induction l1 with
  | nil =>
    intro n m s s1 e s2 l2 h1 hm hf
    cases n with
    | zero => exact absurd hm (by simp)
    | succ k =>
      injection h1 with h1'
      injection h1' with ha hb
      subst hb
      simp only [List.length_nil, Nat.sub_zero] at hm
      injection hm with hm'
      subst hm'
      simp only [List.nil_append]
      simp only [evalSeq, hf]
  | cons x xs ih =>
    intro n m s s1 e s2 l2 h1 hm hf
    cases n with
    | zero => exact absurd h1 (by simp [evalSeq])
    | succ k =>
      unfold evalSeq at h1 ⊢
      cases hb : evalExpr k c x s with
      | none => rw [hb] at h1; exact absurd h1 (by simp)
      | some br =>
        rw [hb] at h1
        obtain ⟨b, s3⟩ := br
        cases b with
        | false =>
          injection h1 with h1'
          exact absurd (congrArg Prod.fst h1') (by simp)
        | true =>
          have hm' : k - xs.length = m + 1 := by
            simpa [List.length_cons, Nat.succ_sub_succ] using hm
          have hgoal := ih k m s3 s1 e s2 l2 h1 hm' hf
          show (match evalExpr k c x s with
              | none => none
              | some (false, s4) => some (false, s4)
              | some (true, s4) => evalSeq k c (xs ++ e :: l2) s4) = some (false, s2)
          rw [hb]
          exact hgoal

/-- C5 (witness): `"a" "b" "c"` against `"ax"`: the first child matches,
the second fails after consuming the mismatching rune, and the sequence
fails with the cursor left at position 2 — not rolled back to 0 — without
the third child being evaluated. -/
theorem evalSeq_spec_witness :
    evalSeq 10 ⟨[], "ax".toList⟩ [.tok "a".toList, .tok "b".toList, .tok "c".toList]
      ⟨0, false, false⟩ = some (false, ⟨2, false, false⟩) :=
  evalSeq_spec ⟨[], "ax".toList⟩ [.tok "a".toList] 10 8 ⟨0, false, false⟩
    ⟨1, false, false⟩ (.tok "b".toList) ⟨2, false, false⟩ [.tok "c".toList] rfl rfl rfl

-- ### C2: the end-of-input short-circuit

theorem evalOptRep_eof_immediate (n : Nat) (c : Ctx) (body : Expr) (s : PState)
    (h : s.eof = true) :
    evalOpt n c body s = some (true, s) ∧ evalRep n c body s = some (true, s) := by
  obtain ⟨pos, eof, skipping⟩ := s
  cases h
  cases n with
  | zero => exact ⟨rfl, rfl⟩
  | succ m => exact ⟨rfl, rfl⟩

/-- C2 (amended): once the eof flag is set, Option and Repetition
evaluations report success immediately, without attempting their bodies
and without changing the state; Token and Range evaluations are not
affected by the flag and may still fail or consume input. -/
theorem eof_shortcircuit_opt_rep (n : Nat) (c : Ctx) (body : Expr) (s : PState)
    (h : s.eof = true) :
    evalOpt n c body s = some (true, s) ∧ evalRep n c body s = some (true, s) :=
  evalOptRep_eof_immediate n c body s h

/-- C2 (counterexample): with the eof flag set, a Token evaluation is not
short-circuited.  At the end of input `"a"` the token `"a"` reports
failure, and from a rolled-back position 0 of input `"ab"` the token `"b"`
consumes a rune before failing — both contradict "every further expression
evaluation reports success without consuming input". -/
theorem eof_shortcircuit_counterexample :
    evalExpr 5 ⟨[], "a".toList⟩ (.tok "a".toList) ⟨1, true, false⟩
      = some (false, ⟨1, true, false⟩)
    ∧ evalExpr 5 ⟨[], "ab".toList⟩ (.tok "b".toList) ⟨0, true, false⟩
      = some (false, ⟨1, true, false⟩) := ⟨rfl, rfl⟩

/-- C2 (witness): the amended theorem at eof state position 1 of the
two-rune input `"ab"`: Option and Repetition succeed without moving. -/
theorem eof_shortcircuit_opt_rep_witness :
    evalOpt 5 ⟨[], "ab".toList⟩ (.tok "b".toList) ⟨1, true, false⟩
      = some (true, ⟨1, true, false⟩)
    ∧ evalRep 5 ⟨[], "ab".toList⟩ (.tok "b".toList) ⟨1, true, false⟩
      = some (true, ⟨1, true, false⟩) :=
  eof_shortcircuit_opt_rep 5 ⟨[], "ab".toList⟩ (.tok "b".toList) ⟨1, true, false⟩ rfl

-- ### eof-flag monotonicity

theorem nextRune_eof_mono (c : Ctx) (s : PState) (h : s.eof = true) :
    ((nextRune c s).2).eof = true := by
  unfold nextRune
  cases c.input[s.pos]? <;> simp [h]

theorem evalToken_eof_mono (c : Ctx) : ∀ (t : Str) (s : PState),
    s.eof = true → ((evalToken c t s).2).eof = true := by
  intro t
  induction t with
  | nil => intro s h; exact h
  | cons q qs ih =>
    intro s h
    unfold evalToken
    cases hr : nextRune c s with
    | mk r s2 =>
      have h2 : s2.eof = true := by
        have := nextRune_eof_mono c s h
        rw [hr] at this
        exact this
      cases r with
      | none => exact h2
      | some rr =>
        by_cases heq : rr = q
        · simp only [heq, if_pos rfl]
          exact ih s2 h2
        · simp only [if_neg heq]
          exact h2

theorem evalRange_eof_mono (c : Ctx) (b e : Str) (s : PState) (h : s.eof = true) :
    ((evalRange c b e s).2).eof = true := by
  unfold evalRange
  cases hr : nextRune c s with
  | mk r s2 =>
    have h2 : s2.eof = true := by
      have := nextRune_eof_mono c s h
      rw [hr] at this
      exact this
    cases r <;> exact h2

theorem skip_zero_eq (c : Ctx) (s : PState) :
    skip 0 c s =
      if s.skipping then some s
      else
        match c.grammar.find? "skip".toList with
        | none => some { s with skipping := false }
        | some _ => none := rfl

/-- Joint eof-monotonicity: no interpreter operation ever clears the eof
flag once set — position rollbacks restore `pos` only. -/
theorem eval_eof_mono : ∀ n : Nat,
    (∀ c x s r, evalExpr n c x s = some r → s.eof = true → r.2.eof = true)
    ∧ (∀ c s s2, skip n c s = some s2 → s.eof = true → s2.eof = true)
    ∧ (∀ c e s s2, skipLoop n c e s = some s2 → s.eof = true → s2.eof = true)
    ∧ (∀ c es s r, evalAlt n c es s = some r → s.eof = true → r.2.eof = true)
    ∧ (∀ c es s r, evalSeq n c es s = some r → s.eof = true → r.2.eof = true)
    ∧ (∀ c b s r, evalOpt n c b s = some r → s.eof = true → r.2.eof = true)
    ∧ (∀ c b s r, evalRep n c b s = some r → s.eof = true → r.2.eof = true) := by
  intro n
  induction n using Nat.strong_induction_on with
  | _ n ih =>
    have hOpt : ∀ c b s r, evalOpt n c b s = some r → s.eof = true → r.2.eof = true := by
      intro c b s r h he
      rw [(evalOptRep_eof_immediate n c b s he).1] at h
      injection h with h'
      subst h'
      exact he
    have hRep : ∀ c b s r, evalRep n c b s = some r → s.eof = true → r.2.eof = true := by
      intro c b s r h he
      rw [(evalOptRep_eof_immediate n c b s he).2] at h
      injection h with h'
      subst h'
      exact he
    have hSkipLoop : ∀ c e s s2, skipLoop n c e s = some s2 → s.eof = true →
        s2.eof = true := by
      intro c e s s2 h he
      cases n with
      | zero => exact absurd h (by simp [skipLoop])
      | succ m =>
        unfold skipLoop at h
        cases hb : evalExpr m c e s with
        | none => rw [hb] at h; exact absurd h (by simp)
        | some br =>
          rw [hb] at h
          obtain ⟨bb, s3⟩ := br
          have h3 : s3.eof = true := (ih m (by omega)).1 c e s (bb, s3) hb he
          cases bb with
          | true => exact (ih m (by omega)).2.2.1 c e s3 s2 h h3
          | false =>
            injection h with h'
            subst h'
            exact h3
    have hSkip : ∀ c s s2, skip n c s = some s2 → s.eof = true → s2.eof = true := by
      intro c s s2 h he
      cases n with
      | zero =>
        rw [skip_zero_eq] at h
        by_cases hg : s.skipping
        · rw [if_pos hg] at h
          injection h with h'
          subst h'
          exact he
        · rw [if_neg hg] at h
          cases hf : c.grammar.find? "skip".toList with
          | none =>
            rw [hf] at h
            injection h with h'
            subst h'
            exact he
          | some prod => rw [hf] at h; exact absurd h (by simp)
      | succ m =>
        rw [skip_succ_eq] at h
        by_cases hg : s.skipping
        · rw [if_pos hg] at h
          injection h with h'
          subst h'
          exact he
        · rw [if_neg hg] at h
          cases hf : c.grammar.find? "skip".toList with
          | none =>
            rw [hf] at h
            injection h with h'
            subst h'
            exact he
          | some prod =>
            rw [hf] at h
            have h2 : (match skipLoop m c prod.expr { s with skipping := true } with
                | none => none
                | some s3 => some { s3 with skipping := false }) = some s2 := h
            cases hl : skipLoop m c prod.expr { s with skipping := true } with
            | none => rw [hl] at h2; exact absurd h2 (by simp)
            | some s3 =>
              rw [hl] at h2
              injection h2 with h'
              subst h'
              exact (ih m (by omega)).2.2.1 c prod.expr _ s3 hl he
    have hAlt : ∀ c es s r, evalAlt n c es s = some r → s.eof = true →
        r.2.eof = true := by
      intro c es s r h he
      cases es with
      | nil =>
        cases n <;>
          · injection h with h'
            subst h'
            exact he
      | cons e es =>
        cases n with
        | zero => exact absurd h (by simp [evalAlt])
        | succ m =>
          unfold evalAlt at h
          cases hb : evalExpr m c e s with
          | none => rw [hb] at h; exact absurd h (by simp)
          | some br =>
            rw [hb] at h
            obtain ⟨bb, s3⟩ := br
            have h3 : s3.eof = true := (ih m (by omega)).1 c e s (bb, s3) hb he
            cases bb with
            | true =>
              injection h with h'
              subst h'
              exact h3
            | false => exact (ih m (by omega)).2.2.2.1 c es _ r h h3
    have hSeq : ∀ c es s r, evalSeq n c es s = some r → s.eof = true →
        r.2.eof = true := by
      intro c es s r h he
      cases es with
      | nil =>
        cases n <;>
          · injection h with h'
            subst h'
            exact he
      | cons e es =>
        cases n with
        | zero => exact absurd h (by simp [evalSeq])
        | succ m =>
          unfold evalSeq at h
          cases hb : evalExpr m c e s with
          | none => rw [hb] at h; exact absurd h (by simp)
          | some br =>
            rw [hb] at h
            obtain ⟨bb, s3⟩ := br
            have h3 : s3.eof = true := (ih m (by omega)).1 c e s (bb, s3) hb he
            cases bb with
            | false =>
              injection h with h'
              subst h'
              exact h3
            | true => exact (ih m (by omega)).2.2.2.2.1 c es s3 r h h3
    have hExpr : ∀ c x s r, evalExpr n c x s = some r → s.eof = true →
        r.2.eof = true := by
      intro c x s r h he
      cases n with
      | zero => exact absurd h (by simp [evalExpr])
      | succ m =>
        unfold evalExpr at h
        cases hsk : skip m c s with
        | none => rw [hsk] at h; exact absurd h (by simp)
        | some s1 =>
          rw [hsk] at h
          have h1 : s1.eof = true := (ih m (by omega)).2.1 c s s1 hsk he
          cases x with
          | empty => exact absurd h (by simp)
          | alt xs => exact (ih m (by omega)).2.2.2.1 c xs s1 r h h1
          | seq xs => exact (ih m (by omega)).2.2.2.2.1 c xs s1 r h h1
          | name nm =>
            have h2 : (match c.grammar.find? nm with
                | none => none
                | some prod => evalExpr m c prod.expr s1) = some r := h
            cases hf : c.grammar.find? nm with
            | none => rw [hf] at h2; exact absurd h2 (by simp)
            | some prod =>
              rw [hf] at h2
              exact (ih m (by omega)).1 c prod.expr s1 r h2 h1
          | tok t =>
            injection h with h'
            subst h'
            exact evalToken_eof_mono c t s1 h1
          | range b ed =>
            injection h with h'
            subst h'
            exact evalRange_eof_mono c b ed s1 h1
          | group body => exact (ih m (by omega)).1 c body s1 r h h1
          | opt body => exact (ih m (by omega)).2.2.2.2.2.1 c body s1 r h h1
          | rep body => exact (ih m (by omega)).2.2.2.2.2.2 c body s1 r h h1
    exact ⟨hExpr, hSkip, hSkipLoop, hAlt, hSeq, hOpt, hRep⟩

-- ### C10: the eof flag is monotone

/-- C10: `nextRune` sets the eof flag whenever the position is at or past
the end of the input; no evaluation ever clears the flag (rollbacks in
Alternative, Option, Repetition and skip restore only `pos`), stated for
`evalExpr`, which encompasses every expression form, and for `skip`; and
once the flag is set, every Option and every Repetition evaluation
succeeds immediately without attempting its body — for every state,
including states whose position is strictly before the end of the
input. -/
theorem eof_monotone_spec (n : Nat) (c : Ctx) :
    (∀ s : PState, c.input.length ≤ s.pos →
        nextRune c s = (none, { s with eof := true }))
    ∧ (∀ x s r, evalExpr n c x s = some r → s.eof = true → r.2.eof = true)
    ∧ (∀ s s2, skip n c s = some s2 → s.eof = true → s2.eof = true)
    ∧ (∀ b s, s.eof = true →
        evalOpt n c b s = some (true, s) ∧ evalRep n c b s = some (true, s)) := by
  refine ⟨?_, (eval_eof_mono n).1 c,
    fun s s2 h he => (eval_eof_mono n).2.1 c s s2 h he,
    fun b s he => evalOptRep_eof_immediate n c b s he⟩
  intro s hlen
  unfold nextRune
  rw [List.getElem?_eq_none hlen]

/-- C10 (witness): reading at the end of `"ab"` sets the eof flag; a
failing token probe from eof state keeps the flag; Option and Repetition
from eof state at position 1 — strictly before the end — succeed without
moving. -/
theorem eof_monotone_spec_witness :
    nextRune ⟨[], "ab".toList⟩ ⟨2, false, false⟩ = (none, ⟨2, true, false⟩)
    ∧ ((false, (⟨2, true, false⟩ : PState)).2.eof = true)
    ∧ (evalOpt 5 ⟨[], "ab".toList⟩ (.tok "b".toList) ⟨1, true, false⟩
        = some (true, ⟨1, true, false⟩)
      ∧ evalRep 5 ⟨[], "ab".toList⟩ (.tok "b".toList) ⟨1, true, false⟩
        = some (true, ⟨1, true, false⟩)) :=
  ⟨(eof_monotone_spec 5 ⟨[], "ab".toList⟩).1 ⟨2, false, false⟩ (by decide),
   (eof_monotone_spec 5 ⟨[], "ab".toList⟩).2.1 (.tok "a".toList) ⟨1, true, false⟩
     (false, ⟨2, true, false⟩) rfl rfl,
   (eof_monotone_spec 5 ⟨[], "ab".toList⟩).2.2.2 (.tok "b".toList) ⟨1, true, false⟩ rfl⟩

-- ### C9: the skip reentrancy guard

/-- C9 (amended): a `skip` invocation while the `skipping` flag is set
returns immediately with the state unchanged, evaluating nothing, so a
skip body cannot recursively re-trigger skip — the guard eliminates
unbounded recursion through nested skip invocations; the outer skip loop
repeats while the body matches and, after the final failed attempt,
resets the position to the one saved before that attempt; and there are
grammars whose skip body re-triggers skip (every evaluation step invokes
skip, including the steps inside the skip body) that terminate, such as
`skip = ","` here.  Termination is not universal: see the counterexample
with a Repetition skip body. -/
theorem skip_reentrancy_spec :
    (∀ (n : Nat) (c : Ctx) (s : PState), s.skipping = true → skip n c s = some s)
    ∧ (∀ (m : Nat) (c : Ctx) e s s1, evalExpr m c e s = some (true, s1) →
        skipLoop (m + 1) c e s = skipLoop m c e s1)
    ∧ (∀ (m : Nat) (c : Ctx) e s s2, evalExpr m c e s = some (false, s2) →
        skipLoop (m + 1) c e s = some { s2 with pos := s.pos })
    ∧ speak 20 [⟨"Program".toList, .tok "a".toList⟩, ⟨"skip".toList, .tok ",".toList⟩]
        ",a".toList "Program".toList = some (true, ⟨2, true, false⟩) := by
  refine ⟨?_, ?_, ?_, by rfl⟩
  · intro n c s h
    cases n with
    | zero => simp [skip_zero_eq, h]
    | succ m => simp [skip_succ_eq, h]
  · intro m c e s s1 h
    simp only [skipLoop, h]
  · intro m c e s s2 h
    simp only [skipLoop, h]

/-- C9 (witness): with a skip production present and the `skipping` flag
set, `skip` returns the state unchanged without evaluating the skip body;
and a skip-loop attempt that fails rolls the position back to the value
saved before the attempt. -/
theorem skip_reentrancy_witness :
    skip 5 ⟨[⟨"skip".toList, .tok ",".toList⟩], ",,".toList⟩ ⟨0, false, true⟩
      = some ⟨0, false, true⟩
    ∧ skipLoop 5 ⟨[], "a".toList⟩ (.tok ",".toList) ⟨0, false, true⟩
      = some ⟨0, false, true⟩ :=
  ⟨skip_reentrancy_spec.1 5 ⟨[⟨"skip".toList, .tok ",".toList⟩], ",,".toList⟩
     ⟨0, false, true⟩ rfl,
   skip_reentrancy_spec.2.2.1 4 ⟨[], "a".toList⟩ (.tok ",".toList) ⟨0, false, true⟩
     ⟨1, false, true⟩ rfl⟩

-- ### C8: regex synthesis for Token and Range

/-- The subset of Go `regexp/syntax` AST nodes produced by `Regexp`:
`literal` holds the rune sequence of `OpLiteral`, `charClass` the flat
list of inclusive rune pairs of `OpCharClass`. -/
inductive RegexAST where
  | emptyMatch
  | alternate (subs : List RegexAST)
  | concat (subs : List RegexAST)
  | literal (runes : Str)
  | charClass (runes : Str)
  | capture (sub : RegexAST)
  | quest (sub : RegexAST)
  | star (sub : RegexAST)

mutual
/-- From `Regexp` in the source: translate a validated terminal expression
to a regex AST.  `Name` resolves the referenced production and recurses
into its expression (fuel bounds this unbounded recursion; `none` models
fuel exhaustion or the `nil` dereference on an undefined name). -/
def Regexp : Nat → Grammar → Expr → Option RegexAST
  | 0, _, _ => none
  | n + 1, grammar, x =>
    match x with
    | .empty => some .emptyMatch
    | .alt xs => (RegexpList n grammar xs).map .alternate
    | .seq xs => (RegexpList n grammar xs).map .concat
    | .name nm =>
      match grammar.find? nm with
      | none => none
      | some prod => Regexp n grammar prod.expr
    | .tok s => some (.literal s)
    | .range b e => some (.charClass [b.headD runeError, e.headD runeError])
    | .group body => (Regexp n grammar body).map .capture
    | .opt body => (Regexp n grammar body).map .quest
    | .rep body => (Regexp n grammar body).map .star

def RegexpList : Nat → Grammar → List Expr → Option (List RegexAST)
  | _, _, [] => some []
  | 0, _, _ :: _ => none
  | n + 1, grammar, x :: xs =>
    match Regexp n grammar x, RegexpList n grammar xs with
    | some r, some rs => some (r :: rs)
    | _, _ => none
end

/-- Membership of a rune in a `regexp/syntax` character class given as a
flat list of inclusive `[lo, hi]` rune pairs. -/
def inClass : Str → Char → Bool
  | lo :: hi :: rest, c => (lo ≤ c && c ≤ hi) || inClass rest c
  | _, _ => false

/-- The language of a regex AST: the standard semantics of the
`regexp/syntax` operators produced by `Regexp`. -/
inductive RMatch : RegexAST → Str → Prop where
  | emptyMatch : RMatch .emptyMatch []
  | alternate {rs : List RegexAST} {r w} : r ∈ rs → RMatch r w →
      RMatch (.alternate rs) w
  | concatNil : RMatch (.concat []) []
  | concatCons {r rs w1 w2} : RMatch r w1 → RMatch (.concat rs) w2 →
      RMatch (.concat (r :: rs)) (w1 ++ w2)
  | literal {cs} : RMatch (.literal cs) cs
  | charClass {rs c} : inClass rs c = true → RMatch (.charClass rs) [c]
  | capture {r w} : RMatch r w → RMatch (.capture r) w
  | questNone {r} : RMatch (.quest r) []
  | questSome {r w} : RMatch r w → RMatch (.quest r) w
  | starNil {r} : RMatch (.star r) []
  | starCons {r w1 w2} : RMatch r w1 → RMatch (.star r) w2 →
      RMatch (.star r) (w1 ++ w2)

/-- C8: the regex synthesized for a Token is the literal node over exactly
the token's rune sequence, and its match set is the singleton of the
literal text, whatever runes (regex metacharacters included) the text
contains; the regex synthesized for a Range is a single-character class
over the inclusive interval between the first runes of the endpoints, and
it matches exactly the one-rune strings inside that interval. -/
theorem regexp_token_range_spec (n : Nat) (g : Grammar) (t b e : Str) (w : Str) :
    Regexp (n + 1) g (.tok t) = some (.literal t)
    ∧ (RMatch (.literal t) w ↔ w = t)
    ∧ Regexp (n + 1) g (.range b e)
        = some (.charClass [b.headD runeError, e.headD runeError])
    ∧ (RMatch (.charClass [b.headD runeError, e.headD runeError]) w ↔
        ∃ ch, w = [ch] ∧ b.headD runeError ≤ ch ∧ ch ≤ e.headD runeError) := by
  refine ⟨rfl, ?_, rfl, ?_⟩
  · constructor
    · intro h
      cases h
      rfl
    · rintro rfl
      exact RMatch.literal
  · constructor
    · intro h
      cases h with
      | charClass hc =>
        rename_i ch
        simp only [inClass, Bool.or_false, Bool.and_eq_true, decide_eq_true_eq] at hc
        exact ⟨ch, rfl, hc.1, hc.2⟩
    · rintro ⟨ch, rfl, h1, h2⟩
      refine RMatch.charClass ?_
      simp only [inClass, Bool.or_false, Bool.and_eq_true, decide_eq_true_eq]
      exact ⟨h1, h2⟩

/-- C8 (witness): the theorem at the metacharacter-laden token `"a*"` and
the range `"x" … "z"`: the literal matches exactly its own text (not, for
instance, the unstarred prefix), and the class matches exactly single
runes within the interval. -/
theorem regexp_token_range_witness :
    Regexp 5 [] (.tok "a*".toList) = some (.literal "a*".toList)
    ∧ (RMatch (.literal "a*".toList) "a*".toList ↔ "a*".toList = "a*".toList)
    ∧ Regexp 5 [] (.range "x".toList "z".toList)
        = some (.charClass ['x', 'z'])
    ∧ (RMatch (.charClass ['x', 'z']) "y".toList ↔
        ∃ ch, "y".toList = [ch] ∧ 'x' ≤ ch ∧ ch ≤ 'z') :=
  ⟨(regexp_token_range_spec 4 [] "a*".toList "x".toList "z".toList "a*".toList).1,
   (regexp_token_range_spec 4 [] "a*".toList "x".toList "z".toList "a*".toList).2.1,
   (regexp_token_range_spec 4 [] "a*".toList "x".toList "z".toList "y".toList).2.2.1,
   (regexp_token_range_spec 4 [] "a*".toList "x".toList "z".toList "y".toList).2.2.2⟩

-- ### C7: terminal extraction

/-- Go map insertion `m[k] = v` on an association list: replace the value
at an existing key, otherwise add the binding. -/
def insertAssoc : List (Str × Expr) → Str → Expr → List (Str × Expr)
  | [], k, v => [(k, v)]
  | (k2, v2) :: rest, k, v =>
    if k2 = k then (k, v) :: rest else (k2, v2) :: insertAssoc rest k v

/-- Go map lookup `m[k]` on an association list. -/
def lookupAssoc : List (Str × Expr) → Str → Option Expr
  | [], _ => none
  | (k2, v2) :: rest, k => if k2 = k then some v2 else lookupAssoc rest k

/-- The `extract` struct of the source: the three terminal maps, keyed by
production name, literal text, and `[begin-end]` spelling. -/
structure Extract where
  names : List (Str × Expr)
  tokens : List (Str × Expr)
  ranges : List (Str × Expr)

mutual
/-- From `extract.Expr` in the source: record lexical Name references,
Token literals, and Ranges (keyed by the `[begin-end]` spelling) found in
the expression tree. -/
def extractExpr (ex : Extract) : Expr → Extract
  | .empty => ex
  | .alt xs => extractExprList ex xs
  | .seq xs => extractExprList ex xs
  | .name nm =>
    if isLexical nm then { ex with names := insertAssoc ex.names nm (.name nm) }
    else ex
  | .tok t => { ex with tokens := insertAssoc ex.tokens t (.tok t) }
  | .range b e =>
    let key := "[".toList ++ b ++ "-".toList ++ e ++ "]".toList
    { ex with ranges := insertAssoc ex.ranges key (.range b e) }
  | .group body => extractExpr ex body
  | .opt body => extractExpr ex body
  | .rep body => extractExpr ex body

def extractExprList (ex : Extract) : List Expr → Extract
  | [] => ex
  | x :: xs => extractExprList (extractExpr ex x) xs
end

/-- Go's `sort.Strings`, modelled as sorting into nondecreasing
lexicographic rune order (on the unique keys of a map every correct sort
yields this same ascending sequence). -/
def sortStrings (l : List Str) : List Str := List.insertionSort (· ≤ ·) l

/-- One iteration of the production loop in `extract.Terminals`: walk the
production's tree only when its name is not lexical. -/
def extractProdStep (g : Grammar) (ex : Extract) (nm : Str) : Extract :=
  match g.find? nm with
  | none => ex
  | some prod => if !isLexical nm then extractExpr ex prod.expr else ex

/-- The collection phase of `extract.Terminals`: visit the productions in
sorted key order. -/
def extractAll (g : Grammar) : Extract :=
  (sortStrings (g.map Production.name)).foldl (extractProdStep g) ⟨[], [], []⟩

/-- From `Terminals` in the source: collect terminals from the syntactic
productions, then emit the name terminals, the token terminals and the
range terminals, each group in sorted key order. -/
def Terminals (g : Grammar) : List Expr :=
  let ex := extractAll g
  (sortStrings (ex.names.map Prod.fst)).filterMap (lookupAssoc ex.names)
    ++ (sortStrings (ex.tokens.map Prod.fst)).filterMap (lookupAssoc ex.tokens)
    ++ (sortStrings (ex.ranges.map Prod.fst)).filterMap (lookupAssoc ex.ranges)

mutual
/-- Whether the expression tree contains a reference to the production
name `nm` (stated from the claim's words, for comparison with the
extractor). -/
def occursName (nm : Str) : Expr → Bool
  | .empty => false
  | .alt xs => occursNameList nm xs
  | .seq xs => occursNameList nm xs
  | .name s => s = nm
  | .tok _ => false
  | .range _ _ => false
  | .group body => occursName nm body
  | .opt body => occursName nm body
  | .rep body => occursName nm body

def occursNameList (nm : Str) : List Expr → Bool
  | [] => false
  | x :: xs => occursName nm x || occursNameList nm xs
end

mutual
/-- Whether the expression tree contains the token literal `t` (stated
from the claim's words, for comparison with the extractor). -/
def occursTok (t : Str) : Expr → Bool
  | .empty => false
  | .alt xs => occursTokList t xs
  | .seq xs => occursTokList t xs
  | .name _ => false
  | .tok s => s = t
  | .range _ _ => false
  | .group body => occursTok t body
  | .opt body => occursTok t body
  | .rep body => occursTok t body

def occursTokList (t : Str) : List Expr → Bool
  | [] => false
  | x :: xs => occursTok t x || occursTokList t xs
end

theorem extract_scenario_three :
    Terminals [⟨"Program".toList, .name "ident".toList⟩,
        ⟨"ident".toList, .tok "x".toList⟩]
      = [.name "ident".toList] := by rfl

theorem insertAssoc_cons_eq (pk : Str) (pv : Expr) (rest : List (Str × Expr))
    (k : Str) (v : Expr) (hk : pk = k) :
    insertAssoc ((pk, pv) :: rest) k v = (k, v) :: rest := by
  rw [insertAssoc, if_pos hk]

theorem insertAssoc_cons_ne (pk : Str) (pv : Expr) (rest : List (Str × Expr))
    (k : Str) (v : Expr) (hk : pk ≠ k) :
    insertAssoc ((pk, pv) :: rest) k v = (pk, pv) :: insertAssoc rest k v := by
  rw [insertAssoc, if_neg hk]

theorem insertAssoc_keys_mem (m : List (Str × Expr)) (k k2 : Str) (v : Expr) :
    k2 ∈ (insertAssoc m k v).map Prod.fst ↔ k2 = k ∨ k2 ∈ m.map Prod.fst := by
  induction m with
  | nil => simp [insertAssoc]
  | cons p rest ih =>
    obtain ⟨pk, pv⟩ := p
    by_cases h : pk = k
    · subst h
      rw [insertAssoc_cons_eq pk pv rest pk v rfl]
      simp only [List.map_cons, List.mem_cons]
      tauto
    · rw [insertAssoc_cons_ne pk pv rest k v h]
      simp only [List.map_cons, List.mem_cons, ih]
      tauto

theorem insertAssoc_keys_nodup (m : List (Str × Expr)) (k : Str) (v : Expr)
    (h : (m.map Prod.fst).Nodup) : ((insertAssoc m k v).map Prod.fst).Nodup := by
  induction m with
  | nil => simp [insertAssoc]
  | cons p rest ih =>
    obtain ⟨pk, pv⟩ := p
    simp only [List.map_cons, List.nodup_cons] at h
    by_cases hk : pk = k
    · subst hk
      rw [insertAssoc_cons_eq pk pv rest pk v rfl]
      simp only [List.map_cons, List.nodup_cons]
      exact ⟨h.1, h.2⟩
    · rw [insertAssoc_cons_ne pk pv rest k v hk]
      simp only [List.map_cons, List.nodup_cons]
      refine ⟨?_, ih h.2⟩
      rw [insertAssoc_keys_mem]
      rintro (rfl | hmem)
      · exact hk rfl
      · exact h.1 hmem

theorem insertAssoc_mem (m : List (Str × Expr)) (k : Str) (v : Expr) (p : Str × Expr)
    (h : p ∈ insertAssoc m k v) : p = (k, v) ∨ p ∈ m := by
  induction m with
  | nil => simpa [insertAssoc] using h
  | cons q rest ih =>
    obtain ⟨qk, qv⟩ := q
    by_cases hk : qk = k
    · subst hk
      rw [insertAssoc_cons_eq qk qv rest qk v rfl] at h
      rcases List.mem_cons.mp h with rfl | hm
      · exact Or.inl rfl
      · exact Or.inr (List.mem_cons_of_mem _ hm)
    · rw [insertAssoc_cons_ne qk qv rest k v hk] at h
      rcases List.mem_cons.mp h with rfl | hm
      · exact Or.inr (List.mem_cons_self ..)
      · rcases ih hm with h1 | h2
        · exact Or.inl h1
        · exact Or.inr (List.mem_cons_of_mem _ h2)

theorem lookupAssoc_mem (m : List (Str × Expr)) (k : Str) (v : Expr)
    (h : lookupAssoc m k = some v) : (k, v) ∈ m := by
  induction m with
  | nil => simp [lookupAssoc] at h
  | cons q rest ih =>
    obtain ⟨qk, qv⟩ := q
    by_cases hk : qk = k
    · subst hk
      simp only [lookupAssoc, if_pos rfl] at h
      injection h with h'
      subst h'
      exact List.mem_cons_self ..
    · simp only [lookupAssoc, if_neg hk] at h
      exact List.mem_cons_of_mem _ (ih h)

theorem lookupAssoc_isSome_of_key (m : List (Str × Expr)) (k : Str)
    (h : k ∈ m.map Prod.fst) : ∃ v, lookupAssoc m k = some v := by
  induction m with
  | nil => simp at h
  | cons q rest ih =>
    obtain ⟨qk, qv⟩ := q
    by_cases hk : qk = k
    · subst hk
      exact ⟨qv, by simp [lookupAssoc]⟩
    · simp only [List.map_cons, List.mem_cons] at h
      rcases h with rfl | hm
      · exact absurd rfl hk
      · simpa [lookupAssoc, hk] using ih hm

theorem sortStrings_sorted (l : List Str) : List.Sorted (· ≤ ·) (sortStrings l) :=
  List.sorted_insertionSort _ l

theorem sortStrings_perm (l : List Str) : (sortStrings l).Perm l :=
  List.perm_insertionSort _ l

theorem sortStrings_nodup (l : List Str) (h : l.Nodup) : (sortStrings l).Nodup :=
  ((sortStrings_perm l).nodup_iff).mpr h

theorem sortStrings_mem (l : List Str) (k : Str) : k ∈ sortStrings l ↔ k ∈ l :=
  (sortStrings_perm l).mem_iff

theorem filterMap_eq_map_of_forall {α β : Type} (l : List α) (f : α → Option β)
    (h2 : α → β) (h : ∀ a ∈ l, f a = some (h2 a)) : l.filterMap f = l.map h2 := by
  induction l with
  | nil => rfl
  | cons a l ih =>
    simp only [List.filterMap_cons, h a (List.mem_cons_self ..), List.map_cons]
    rw [ih (fun a ha => h a (List.mem_cons_of_mem _ ha))]

theorem find?_eq_of_mem_nodup : ∀ (g : Grammar),
    (g.map Production.name).Nodup → ∀ p : Production, p ∈ g →
    g.find? p.name = some p := by
  intro g
  induction g with
  | nil => intro _ p hp; simp at hp
  | cons q rest ih =>
    intro hnd p hp
    simp only [List.map_cons, List.nodup_cons] at hnd
    rcases List.mem_cons.mp hp with rfl | hmem
    · simp [Grammar.find?, List.find?]
    · have hne : (q.name == p.name) = false := by
        rw [beq_eq_false_iff_ne]
        intro h
        exact hnd.1 (h ▸ List.mem_map_of_mem Production.name hmem)
      unfold Grammar.find? at ih ⊢
      rw [List.find?_cons, hne]
      exact ih hnd.2 p hmem

/-- Invariant of the extraction state: stored values are determined by
their keys (names hold `Expr.name key`, tokens hold `Expr.tok key`, ranges
hold range nodes), and each map's keys are distinct. -/
def ExtractInv (ex : Extract) : Prop :=
  (∀ p ∈ ex.names, p.2 = Expr.name p.1)
  ∧ (∀ p ∈ ex.tokens, p.2 = Expr.tok p.1)
  ∧ (∀ p ∈ ex.ranges, ∃ b e, p.2 = Expr.range b e)
  ∧ (ex.names.map Prod.fst).Nodup
  ∧ (ex.tokens.map Prod.fst).Nodup
  ∧ (ex.ranges.map Prod.fst).Nodup

mutual
theorem extractExpr_inv : ∀ (e : Expr) (ex : Extract),
    ExtractInv ex → ExtractInv (extractExpr ex e)
  | .empty, ex, h => h
  | .alt xs, ex, h => extractExprList_inv xs ex h
  | .seq xs, ex, h => extractExprList_inv xs ex h
  | .name nm, ex, h => by
    unfold extractExpr
    by_cases hl : isLexical nm = true
    · rw [if_pos hl]
      obtain ⟨h1, h2, h3, h4, h5, h6⟩ := h
      refine ⟨?_, h2, h3, insertAssoc_keys_nodup _ _ _ h4, h5, h6⟩
      intro p hp
      rcases insertAssoc_mem _ _ _ _ hp with rfl | hm
      · rfl
      · exact h1 p hm
    · rw [if_neg hl]
      exact h
  | .tok t, ex, h => by
    obtain ⟨h1, h2, h3, h4, h5, h6⟩ := h
    refine ⟨h1, ?_, h3, h4, insertAssoc_keys_nodup _ _ _ h5, h6⟩
    intro p hp
    rcases insertAssoc_mem _ _ _ _ hp with rfl | hm
    · rfl
    · exact h2 p hm
  | .range b e, ex, h => by
    obtain ⟨h1, h2, h3, h4, h5, h6⟩ := h
    refine ⟨h1, h2, ?_, h4, h5, insertAssoc_keys_nodup _ _ _ h6⟩
    intro p hp
    rcases insertAssoc_mem _ _ _ _ hp with rfl | hm
    · exact ⟨b, e, rfl⟩
    · exact h3 p hm
  | .group body, ex, h => extractExpr_inv body ex h
  | .opt body, ex, h => extractExpr_inv body ex h
  | .rep body, ex, h => extractExpr_inv body ex h

theorem extractExprList_inv : ∀ (xs : List Expr) (ex : Extract),
    ExtractInv ex → ExtractInv (extractExprList ex xs)
  | [], ex, h => h
  | x :: xs, ex, h => extractExprList_inv xs (extractExpr ex x) (extractExpr_inv x ex h)
end

mutual
theorem extractExpr_names_keys : ∀ (e : Expr) (ex : Extract) (k : Str),
    k ∈ (extractExpr ex e).names.map Prod.fst ↔
      k ∈ ex.names.map Prod.fst ∨ (isLexical k = true ∧ occursName k e = true)
  | .empty, ex, k => by simp [extractExpr, occursName]
  | .alt xs, ex, k => by
    simpa [extractExpr, occursName] using extractExprList_names_keys xs ex k
  | .seq xs, ex, k => by
    simpa [extractExpr, occursName] using extractExprList_names_keys xs ex k
  | .name nm, ex, k => by
    unfold extractExpr occursName
    by_cases hl : isLexical nm = true
    · rw [if_pos hl]
      simp only [insertAssoc_keys_mem, decide_eq_true_eq]
      constructor
      · rintro (rfl | hm)
        · exact Or.inr ⟨hl, rfl⟩
        · exact Or.inl hm
      · rintro (hm | ⟨hk, rfl⟩)
        · exact Or.inr hm
        · exact Or.inl rfl
    · rw [if_neg hl]
      simp only [decide_eq_true_eq]
      constructor
      · exact Or.inl
      · rintro (hm | ⟨hk, rfl⟩)
        · exact hm
        · exact absurd hk hl
  | .tok t, ex, k => by simp [extractExpr, occursName]
  | .range b e, ex, k => by simp [extractExpr, occursName]
  | .group body, ex, k => by
    simpa [extractExpr, occursName] using extractExpr_names_keys body ex k
  | .opt body, ex, k => by
    simpa [extractExpr, occursName] using extractExpr_names_keys body ex k
  | .rep body, ex, k => by
    simpa [extractExpr, occursName] using extractExpr_names_keys body ex k

theorem extractExprList_names_keys : ∀ (xs : List Expr) (ex : Extract) (k : Str),
    k ∈ (extractExprList ex xs).names.map Prod.fst ↔
      k ∈ ex.names.map Prod.fst ∨ (isLexical k = true ∧ occursNameList k xs = true)
  | [], ex, k => by simp [extractExprList, occursNameList]
  | x :: xs, ex, k => by
    have h1 := extractExprList_names_keys xs (extractExpr ex x) k
    have h2 := extractExpr_names_keys x ex k
    simp only [extractExprList, occursNameList, Bool.or_eq_true] at h1 ⊢
    rw [h1, h2]
    tauto
end

mutual
theorem extractExpr_tokens_keys : ∀ (e : Expr) (ex : Extract) (k : Str),
    k ∈ (extractExpr ex e).tokens.map Prod.fst ↔
      k ∈ ex.tokens.map Prod.fst ∨ occursTok k e = true
  | .empty, ex, k => by simp [extractExpr, occursTok]
  | .alt xs, ex, k => by
    simpa [extractExpr, occursTok] using extractExprList_tokens_keys xs ex k
  | .seq xs, ex, k => by
    simpa [extractExpr, occursTok] using extractExprList_tokens_keys xs ex k
  | .name nm, ex, k => by
    unfold extractExpr
    by_cases hl : isLexical nm = true
    · rw [if_pos hl]
      simp [occursTok]
    · rw [if_neg hl]
      simp [occursTok]
  | .tok t, ex, k => by
    unfold extractExpr occursTok
    simp only [insertAssoc_keys_mem, decide_eq_true_eq]
    constructor
    · rintro (rfl | hm)
      · exact Or.inr rfl
      · exact Or.inl hm
    · rintro (hm | rfl)
      · exact Or.inr hm
      · exact Or.inl rfl
  | .range b e, ex, k => by simp [extractExpr, occursTok]
  | .group body, ex, k => by
    simpa [extractExpr, occursTok] using extractExpr_tokens_keys body ex k
  | .opt body, ex, k => by
    simpa [extractExpr, occursTok] using extractExpr_tokens_keys body ex k
  | .rep body, ex, k => by
    simpa [extractExpr, occursTok] using extractExpr_tokens_keys body ex k

theorem extractExprList_tokens_keys : ∀ (xs : List Expr) (ex : Extract) (k : Str),
    k ∈ (extractExprList ex xs).tokens.map Prod.fst ↔
      k ∈ ex.tokens.map Prod.fst ∨ occursTokList k xs = true
  | [], ex, k => by simp [extractExprList, occursTokList]
  | x :: xs, ex, k => by
    have h1 := extractExprList_tokens_keys xs (extractExpr ex x) k
    have h2 := extractExpr_tokens_keys x ex k
    simp only [extractExprList, occursTokList, Bool.or_eq_true] at h1 ⊢
    rw [h1, h2]
    tauto
end

theorem extractProdStep_none (g : Grammar) (ex : Extract) (nm : Str)
    (hf : g.find? nm = none) : extractProdStep g ex nm = ex := by
  unfold extractProdStep
  rw [hf]

theorem extractProdStep_lex (g : Grammar) (ex : Extract) (nm : Str) (prod : Production)
    (hf : g.find? nm = some prod) (hl : isLexical nm = true) :
    extractProdStep g ex nm = ex := by
  unfold extractProdStep
  rw [hf]
  show (if !isLexical nm then extractExpr ex prod.expr else ex) = ex
  simp [hl]

theorem extractProdStep_syn (g : Grammar) (ex : Extract) (nm : Str) (prod : Production)
    (hf : g.find? nm = some prod) (hl : isLexical nm = false) :
    extractProdStep g ex nm = extractExpr ex prod.expr := by
  unfold extractProdStep
  rw [hf]
  show (if !isLexical nm then extractExpr ex prod.expr else ex) = extractExpr ex prod.expr
  simp [hl]

theorem foldl_extractProdStep_inv (g : Grammar) : ∀ (L : List Str) (ex : Extract),
    ExtractInv ex → ExtractInv (L.foldl (extractProdStep g) ex) := by
  intro L
  induction L with
  | nil => intro ex h; exact h
  | cons nm L ih =>
    intro ex h
    rw [List.foldl_cons]
    refine ih _ ?_
    cases hf : g.find? nm with
    | none => rw [extractProdStep_none g ex nm hf]; exact h
    | some prod =>
      by_cases hl : isLexical nm = true
      · rw [extractProdStep_lex g ex nm prod hf hl]; exact h
      · rw [extractProdStep_syn g ex nm prod hf (by simpa using hl)]
        exact extractExpr_inv _ _ h

theorem extractAll_inv (g : Grammar) : ExtractInv (extractAll g) := by
  unfold extractAll
  exact foldl_extractProdStep_inv g _ _
    ⟨by simp, by simp, by simp, by simp, by simp, by simp⟩

theorem foldl_extractProdStep_names (g : Grammar) :
    ∀ (L : List Str) (ex : Extract) (k : Str),
    k ∈ ((L.foldl (extractProdStep g) ex).names.map Prod.fst) ↔
      k ∈ ex.names.map Prod.fst ∨ ∃ nm ∈ L, ∃ prod, g.find? nm = some prod ∧
        isLexical nm = false ∧ isLexical k = true ∧ occursName k prod.expr = true := by
  intro L
  induction L with
  | nil => intro ex k; simp
  | cons nm L ih =>
    intro ex k
    rw [List.foldl_cons, ih]
    have hstep : k ∈ (extractProdStep g ex nm).names.map Prod.fst ↔
        k ∈ ex.names.map Prod.fst ∨ ∃ prod, g.find? nm = some prod ∧
          isLexical nm = false ∧ isLexical k = true ∧ occursName k prod.expr = true := by
      cases hf : g.find? nm with
      | none =>
        rw [extractProdStep_none g ex nm hf]
        constructor
        · exact Or.inl
        · rintro (hm | ⟨prod, hfind, _⟩)
          · exact hm
          · exact absurd hfind (by simp)
      | some prod =>
        by_cases hl : isLexical nm = true
        · rw [extractProdStep_lex g ex nm prod hf hl]
          constructor
          · exact Or.inl
          · rintro (hm | ⟨prod2, hfind, hlex, _⟩)
            · exact hm
            · rw [hl] at hlex
              exact absurd hlex (by simp)
        · have hl2 : isLexical nm = false := by simpa using hl
          rw [extractProdStep_syn g ex nm prod hf hl2, extractExpr_names_keys]
          constructor
          · rintro (hm | ⟨hk, hocc⟩)
            · exact Or.inl hm
            · exact Or.inr ⟨prod, rfl, hl2, hk, hocc⟩
          · rintro (hm | ⟨prod2, hfind, hlex, hk, hocc⟩)
            · exact Or.inl hm
            · injection hfind with h'
              subst h'
              exact Or.inr ⟨hk, hocc⟩
    rw [hstep]
    simp only [List.mem_cons]
    constructor
    · rintro ((hm | hstep2) | ⟨nm2, hnm2, rest⟩)
      · exact Or.inl hm
      · exact Or.inr ⟨nm, Or.inl rfl, hstep2⟩
      · exact Or.inr ⟨nm2, Or.inr hnm2, rest⟩
    · rintro (hm | ⟨nm2, (rfl | hnm2), rest⟩)
      · exact Or.inl (Or.inl hm)
      · exact Or.inl (Or.inr rest)
      · exact Or.inr ⟨nm2, hnm2, rest⟩

theorem foldl_extractProdStep_tokens (g : Grammar) :
    ∀ (L : List Str) (ex : Extract) (k : Str),
    k ∈ ((L.foldl (extractProdStep g) ex).tokens.map Prod.fst) ↔
      k ∈ ex.tokens.map Prod.fst ∨ ∃ nm ∈ L, ∃ prod, g.find? nm = some prod ∧
        isLexical nm = false ∧ occursTok k prod.expr = true := by
  intro L
  induction L with
  | nil => intro ex k; simp
  | cons nm L ih =>
    intro ex k
    rw [List.foldl_cons, ih]
    have hstep : k ∈ (extractProdStep g ex nm).tokens.map Prod.fst ↔
        k ∈ ex.tokens.map Prod.fst ∨ ∃ prod, g.find? nm = some prod ∧
          isLexical nm = false ∧ occursTok k prod.expr = true := by
      cases hf : g.find? nm with
      | none =>
        rw [extractProdStep_none g ex nm hf]
        constructor
        · exact Or.inl
        · rintro (hm | ⟨prod, hfind, _⟩)
          · exact hm
          · exact absurd hfind (by simp)
      | some prod =>
        by_cases hl : isLexical nm = true
        · rw [extractProdStep_lex g ex nm prod hf hl]
          constructor
          · exact Or.inl
          · rintro (hm | ⟨prod2, hfind, hlex, _⟩)
            · exact hm
            · rw [hl] at hlex
              exact absurd hlex (by simp)
        · have hl2 : isLexical nm = false := by simpa using hl
          rw [extractProdStep_syn g ex nm prod hf hl2, extractExpr_tokens_keys]
          constructor
          · rintro (hm | hocc)
            · exact Or.inl hm
            · exact Or.inr ⟨prod, rfl, hl2, hocc⟩
          · rintro (hm | ⟨prod2, hfind, hlex, hocc⟩)
            · exact Or.inl hm
            · injection hfind with h'
              subst h'
              exact Or.inr hocc
    rw [hstep]
    simp only [List.mem_cons]
    constructor
    · rintro ((hm | hstep2) | ⟨nm2, hnm2, rest⟩)
      · exact Or.inl hm
      · exact Or.inr ⟨nm, Or.inl rfl, hstep2⟩
      · exact Or.inr ⟨nm2, Or.inr hnm2, rest⟩
    · rintro (hm | ⟨nm2, (rfl | hnm2), rest⟩)
      · exact Or.inl (Or.inl hm)
      · exact Or.inl (Or.inr rest)
      · exact Or.inr ⟨nm2, hnm2, rest⟩

theorem Terminals_names_part (g : Grammar) :
    (sortStrings ((extractAll g).names.map Prod.fst)).filterMap
        (lookupAssoc (extractAll g).names)
      = (sortStrings ((extractAll g).names.map Prod.fst)).map Expr.name := by
  apply filterMap_eq_map_of_forall
  intro k hk
  rw [sortStrings_mem] at hk
  obtain ⟨v, hv⟩ := lookupAssoc_isSome_of_key _ _ hk
  have hmem := lookupAssoc_mem _ _ _ hv
  have hval := (extractAll_inv g).1 (k, v) hmem
  simp only at hval
  rw [hv, hval]

theorem Terminals_tokens_part (g : Grammar) :
    (sortStrings ((extractAll g).tokens.map Prod.fst)).filterMap
        (lookupAssoc (extractAll g).tokens)
      = (sortStrings ((extractAll g).tokens.map Prod.fst)).map Expr.tok := by
  apply filterMap_eq_map_of_forall
  intro k hk
  rw [sortStrings_mem] at hk
  obtain ⟨v, hv⟩ := lookupAssoc_isSome_of_key _ _ hk
  have hmem := lookupAssoc_mem _ _ _ hv
  have hval := (extractAll_inv g).2.1 (k, v) hmem
  simp only at hval
  rw [hv, hval]

/-- C7: terminal extraction walks only the expression trees of syntactic
(non-lexical) productions: a Name-terminal appears in the output iff it is
a lexical name referenced from some syntactic production's tree, and a
Token-terminal appears iff its literal occurs in some syntactic
production's tree; the output is the names group, then the tokens group,
then the ranges group, each group's keys deduplicated and sorted
lexicographically — so extraction of a grammar is deterministic, the same
grammar always yielding this same ordered output. -/
theorem Terminals_spec (g : Grammar) (hnd : (g.map Production.name).Nodup) :
    (∀ k, Expr.name k ∈ Terminals g ↔
        isLexical k = true ∧ ∃ p ∈ g, isLexical p.name = false ∧
          occursName k p.expr = true)
    ∧ (∀ t, Expr.tok t ∈ Terminals g ↔
        ∃ p ∈ g, isLexical p.name = false ∧ occursTok t p.expr = true)
    ∧ (∃ ns ts rs : List Str,
        List.Sorted (· ≤ ·) ns ∧ ns.Nodup ∧
        List.Sorted (· ≤ ·) ts ∧ ts.Nodup ∧
        List.Sorted (· ≤ ·) rs ∧ rs.Nodup ∧
        Terminals g = ns.map Expr.name ++ ts.map Expr.tok
          ++ rs.filterMap (lookupAssoc (extractAll g).ranges)) := by
  have h0 : Terminals g
      = (sortStrings ((extractAll g).names.map Prod.fst)).filterMap
          (lookupAssoc (extractAll g).names)
        ++ (sortStrings ((extractAll g).tokens.map Prod.fst)).filterMap
          (lookupAssoc (extractAll g).tokens)
        ++ (sortStrings ((extractAll g).ranges.map Prod.fst)).filterMap
          (lookupAssoc (extractAll g).ranges) := rfl
  have hTer : Terminals g
      = (sortStrings ((extractAll g).names.map Prod.fst)).map Expr.name
        ++ (sortStrings ((extractAll g).tokens.map Prod.fst)).map Expr.tok
        ++ (sortStrings ((extractAll g).ranges.map Prod.fst)).filterMap
          (lookupAssoc (extractAll g).ranges) := by
    rw [h0, Terminals_names_part g, Terminals_tokens_part g]
  have hNameMem : ∀ k, (k ∈ sortStrings ((extractAll g).names.map Prod.fst)) ↔
      isLexical k = true ∧ ∃ p ∈ g, isLexical p.name = false ∧
        occursName k p.expr = true := by
    intro k
    rw [sortStrings_mem]
    unfold extractAll
    rw [foldl_extractProdStep_names]
    constructor
    · rintro (hm | ⟨nm, hnmL, prod, hfind, hlex, hk, hocc⟩)
      · simp at hm
      · obtain ⟨hname, hmem⟩ := find?_name_eq hfind
        exact ⟨hk, prod, hmem, by rw [hname]; exact hlex, hocc⟩
    · rintro ⟨hk, p, hp, hplex, hocc⟩
      right
      exact ⟨p.name, (sortStrings_mem _ _).mpr (List.mem_map_of_mem Production.name hp),
        p, find?_eq_of_mem_nodup g hnd p hp, hplex, hk, hocc⟩
  have hTokMem : ∀ t, (t ∈ sortStrings ((extractAll g).tokens.map Prod.fst)) ↔
      ∃ p ∈ g, isLexical p.name = false ∧ occursTok t p.expr = true := by
    intro t
    rw [sortStrings_mem]
    unfold extractAll
    rw [foldl_extractProdStep_tokens]
    constructor
    · rintro (hm | ⟨nm, hnmL, prod, hfind, hlex, hocc⟩)
      · simp at hm
      · obtain ⟨hname, hmem⟩ := find?_name_eq hfind
        exact ⟨prod, hmem, by rw [hname]; exact hlex, hocc⟩
    · rintro ⟨p, hp, hplex, hocc⟩
      right
      exact ⟨p.name, (sortStrings_mem _ _).mpr (List.mem_map_of_mem Production.name hp),
        p, find?_eq_of_mem_nodup g hnd p hp, hplex, hocc⟩
  refine ⟨?_, ?_, ?_⟩
  · intro k
    rw [hTer]
    simp only [List.mem_append, List.mem_map, List.mem_filterMap]
    constructor
    · rintro ((⟨a, ha, hea⟩ | ⟨a, ha, hea⟩) | ⟨key, hkey, hlook⟩)
      · injection hea with hea'
        subst hea'
        exact (hNameMem a).mp ha
      · exact absurd hea (fun hh => nomatch hh)
      · have hmem := lookupAssoc_mem _ _ _ hlook
        obtain ⟨b, e, hbe⟩ := (extractAll_inv g).2.2.1 _ hmem
        exact absurd hbe (fun hh => nomatch hh)
    · intro hr
      exact Or.inl (Or.inl ⟨k, (hNameMem k).mpr hr, rfl⟩)
  · intro t
    rw [hTer]
    simp only [List.mem_append, List.mem_map, List.mem_filterMap]
    constructor
    · rintro ((⟨a, ha, hea⟩ | ⟨a, ha, hea⟩) | ⟨key, hkey, hlook⟩)
      · exact absurd hea (fun hh => nomatch hh)
      · injection hea with hea'
        subst hea'
        exact (hTokMem a).mp ha
      · have hmem := lookupAssoc_mem _ _ _ hlook
        obtain ⟨b, e, hbe⟩ := (extractAll_inv g).2.2.1 _ hmem
        exact absurd hbe (fun hh => nomatch hh)
    · intro hr
      exact Or.inl (Or.inr ⟨t, (hTokMem t).mpr hr, rfl⟩)
  · exact ⟨_, _, _, sortStrings_sorted _,
      sortStrings_nodup _ (extractAll_inv g).2.2.2.1,
      sortStrings_sorted _, sortStrings_nodup _ (extractAll_inv g).2.2.2.2.1,
      sortStrings_sorted _, sortStrings_nodup _ (extractAll_inv g).2.2.2.2.2, hTer⟩

/-- C7 (witness): scenario 3 of the spec — `Program = ident .` with
lexical `ident = "x" .` — where the theorem yields that `ident` is a
Name-terminal and that no Token-terminal is extracted, matching the
computed output `[ident]`. -/
theorem Terminals_spec_witness :
    (Expr.name "ident".toList ∈ Terminals [⟨"Program".toList, .name "ident".toList⟩,
        ⟨"ident".toList, .tok "x".toList⟩]
      ↔ isLexical "ident".toList = true ∧
        ∃ p ∈ ([⟨"Program".toList, .name "ident".toList⟩,
            ⟨"ident".toList, .tok "x".toList⟩] : Grammar),
          isLexical p.name = false ∧ occursName "ident".toList p.expr = true)
    ∧ Terminals [⟨"Program".toList, .name "ident".toList⟩,
        ⟨"ident".toList, .tok "x".toList⟩] = [.name "ident".toList] :=
  ⟨(Terminals_spec [⟨"Program".toList, .name "ident".toList⟩,
      ⟨"ident".toList, .tok "x".toList⟩] (by decide)).1 "ident".toList,
   extract_scenario_three⟩

-- ### C9, continued: the skip loop need not terminate

theorem evalRep_ret_true : ∀ (n : Nat) (c : Ctx) (body : Expr) (s : PState)
    (r : Bool × PState), evalRep n c body s = some r → r.1 = true := by
  intro n
  induction n with
  | zero =>
    intro c body s r h
    by_cases he : s.eof = true
    · rw [(evalOptRep_eof_immediate 0 c body s he).2] at h
      injection h with h'
      subst h'
      rfl
    · have h0 : evalRep 0 c body s = none := by
        show (if s.eof = true then some (true, s) else none) = none
        rw [if_neg he]
      rw [h0] at h
      exact absurd h (by simp)
  | succ m ih =>
    intro c body s r h
    by_cases he : s.eof = true
    · rw [(evalOptRep_eof_immediate (m + 1) c body s he).2] at h
      injection h with h'
      subst h'
      rfl
    · rw [evalRep_succ_eq, if_neg he] at h
      cases hb : evalExpr m c body s with
      | none => rw [hb] at h; exact absurd h (by simp)
      | some br =>
        rw [hb] at h
        obtain ⟨bb, s2⟩ := br
        cases bb with
        | true => exact ih c body s2 r h
        | false =>
          injection h with h'
          subst h'
          rfl

theorem evalExpr_rep_ret_true (n : Nat) (c : Ctx) (body : Expr) (s : PState)
    (r : Bool × PState) (h : evalExpr n c (.rep body) s = some r) : r.1 = true := by
  cases n with
  | zero => exact absurd h (by simp [evalExpr])
  | succ m =>
    unfold evalExpr at h
    cases hsk : skip m c s with
    | none => rw [hsk] at h; exact absurd h (by simp)
    | some s1 =>
      rw [hsk] at h
      exact evalRep_ret_true m c body s1 r h

theorem skipLoop_rep_none : ∀ (n : Nat) (c : Ctx) (body : Expr) (s : PState),
    skipLoop n c (.rep body) s = none := by
  intro n
  induction n with
  | zero => intro c body s; rfl
  | succ m ih =>
    intro c body s
    unfold skipLoop
    cases hb : evalExpr m c (.rep body) s with
    | none => rfl
    | some br =>
      obtain ⟨bb, s2⟩ := br
      have hbb : bb = true := evalExpr_rep_ret_true m c body s (bb, s2) hb
      subst hbb
      exact ih c body s2

theorem skip_rep_none (n : Nat) (c : Ctx) (prod : Production) (s : PState)
    (hg : c.grammar.find? "skip".toList = some prod)
    (hb : ∃ body, prod.expr = .rep body) (hs : s.skipping = false) :
    skip n c s = none := by
  obtain ⟨body, hbody⟩ := hb
  cases n with
  | zero =>
    rw [skip_zero_eq, if_neg (by simp [hs]), hg]
  | succ m =>
    rw [skip_succ_eq, if_neg (by simp [hs]), hg]
    show (match skipLoop m c prod.expr { s with skipping := true } with
        | none => none
        | some s2 => some { s2 with skipping := false }) = none
    rw [hbody, skipLoop_rep_none]

/-- Non-termination in the fuel model: the interpretation returns no
result however much fuel it is given — the Go program loops forever. -/
def speakDiverges (g : Grammar) (input : Str) (start : Str) : Prop :=
  ∀ n, speak n g input start = none

/-- C9 (counterexample): the universal termination part of the claim is
false.  For the grammar `Program = "a" .` with `skip = { "," } .` — a
grammar whose skip body re-triggers skip, since every evaluation step
inside the Repetition invokes skip and is cut by the guard — the
Repetition body reports success on every attempt, so the loop in
`parser.skip` never breaks and interpretation of the input `"a"` returns
no result at any fuel: the interpreter hangs instead of terminating. -/
theorem skip_termination_counterexample :
    speakDiverges [⟨"Program".toList, .tok "a".toList⟩,
        ⟨"skip".toList, .rep (.tok ",".toList)⟩] "a".toList "Program".toList := by
  intro n
  cases n with
  | zero => rfl
  | succ m =>
    have hskip : skip m ⟨[⟨"Program".toList, .tok "a".toList⟩,
        ⟨"skip".toList, .rep (.tok ",".toList)⟩], "a".toList⟩ ⟨0, false, false⟩ = none :=
      skip_rep_none m _ ⟨"skip".toList, .rep (.tok ",".toList)⟩ _ rfl ⟨_, rfl⟩ rfl
    have heval : evalExpr (m + 1) ⟨[⟨"Program".toList, .tok "a".toList⟩,
        ⟨"skip".toList, .rep (.tok ",".toList)⟩], "a".toList⟩ (.tok "a".toList)
        ⟨0, false, false⟩ = none := by
      unfold evalExpr
      rw [hskip]
    show (match evalExpr (m + 1) ⟨[⟨"Program".toList, .tok "a".toList⟩,
        ⟨"skip".toList, .rep (.tok ",".toList)⟩], "a".toList⟩ (.tok "a".toList)
        ⟨0, false, false⟩ with
      | none => none
      | some (ret, s1) =>
        match skip (m + 1) ⟨[⟨"Program".toList, .tok "a".toList⟩,
            ⟨"skip".toList, .rep (.tok ",".toList)⟩], "a".toList⟩ s1 with
        | none => none
        | some s2 => some (ret, s2)) = none
    rw [heval]
